import Mathlib

/-!
Verification of the riptide streaming chat client.

This file gives a shallow embedding, in Lean, of the core components of the
repository — the conversation history store (`internal/conversation`), the
completion stream client (`internal/api/client.go`), the session controller
(`internal/ui/model.go`) and the snippet-edit file operation
(`internal/functions`) — and proves the stated properties of the
natural-language specification against those definitions.

Modelling conventions:
* Go slices become `List`, Go strings become `String` (or `List Char` where
  character-level scanning is embedded), Go `int` counters become `Int`.
* Wall-clock reads (`time.Now()`) are environment inputs: functions that
  consult the clock take the observed UTC hour/minute as explicit arguments,
  and the `Timestamp` field of a message (set from the clock, never read by
  any component) is omitted from the message record.
* Go's in-place mutation through the `*History` receiver becomes explicit
  state passing: each mutating method returns the updated `History`.
* The indexing `h.messages[0]` in `History.Clear`, which panics on an empty
  slice, is modelled by returning `Option History` (`none` = panic).
-/

namespace Riptide

/-- `api.FunctionCall` (internal/api/types.go): function name and raw
argument string of a tool call. -/
structure FunctionCall where
  name : String
  arguments : String
deriving Repr, DecidableEq

/-- `api.ToolCall` (internal/api/types.go): a function-call request from the
model.  The `type` field is the literal tag (always "function" for records
built by the stream client). -/
structure ToolCall where
  id : String
  type : String
  function : FunctionCall
deriving Repr, DecidableEq

/-- `api.ConversationMessage` (internal/api/types.go).  The `Timestamp`
field (set from `time.Now()`, never read) and the `ReasoningContent` field
(never assigned anywhere in the repository) are omitted. -/
structure ConversationMessage where
  role : String
  content : String
  toolCalls : List ToolCall
  toolCallID : String
deriving Repr, DecidableEq

/-- The slice of `config.Config` the history store reads:
`cfg.UI.MaxHistoryMessages` (default 15; always non-negative in every
configuration the repository constructs). -/
structure Config where
  maxHistoryMessages : Nat
deriving Repr, DecidableEq

/-- `api.TokenUsage` (internal/api/types.go). -/
structure TokenUsage where
  inputTokens : Int
  outputTokens : Int
  cachedTokens : Int
deriving Repr, DecidableEq

/-- `conversation.History` (internal/conversation/history.go): ordered
message log plus running token counters.  The `sync.RWMutex` guards
concurrent access in Go and has no sequential-semantics content. -/
structure History where
  messages : List ConversationMessage
  config : Config
  inputTokens : Int
  outputTokens : Int
  cachedTokens : Int
  offPeakInputTokens : Int
  offPeakOutputTokens : Int
  offPeakCachedTokens : Int
deriving Repr, DecidableEq

/-- `api.GetSystemPrompt` (internal/api/types.go): the fixed system prompt. -/
def GetSystemPrompt : String :=
  "You are an elite software engineer called Riptide with decades of experience across all programming domains.\nYour expertise spans system design, algorithms, testing, and best practices.\nYou provide thoughtful, well-structured solutions while explaining your reasoning.\n\nCore capabilities:\n1. Code Analysis & Discussion\n   - Analyze code with expert-level insight\n   - Explain complex concepts clearly\n   - Suggest optimizations and best practices\n   - Debug issues with precision\n\n2. File Operations (via function calls):\n   - read_file: Read a single file's content\n   - read_multiple_files: Read multiple files at once\n   - create_file: Create or overwrite a single file\n   - create_multiple_files: Create multiple files at once\n   - edit_file: Make precise edits to existing files using snippet replacement\n\nGuidelines:\n1. Provide natural, conversational responses explaining your reasoning\n2. Use function calls when you need to read or modify files\n3. For file operations:\n   - Always read files first before editing them to understand the context\n   - Use precise snippet matching for edits\n   - Explain what changes you're making and why\n   - Consider the impact of changes on the overall codebase\n4. Follow language-specific best practices\n5. Suggest tests or validation steps when appropriate\n6. Be thorough in your analysis and recommendations\n\nIMPORTANT: In your thinking process, if you realize that something requires a tool call, cut your thinking short and proceed directly to the tool call. Don't overthink - act efficiently when file operations are needed.\n\nRemember: You're a senior engineer - be thoughtful, precise, and explain your reasoning clearly."

/-- `History.AddMessage`.  The Go guards `if len(toolCalls) > 0` and
`if toolCallID != ""` only skip writing a field whose zero value (`nil`
slice / empty string) is what the argument already is, so the unconditional
record below stores exactly the same message. -/
def History.AddMessage (h : History) (role content : String)
    (toolCalls : List ToolCall) (toolCallID : String) : History :=
  { h with
    messages := h.messages ++
      [{ role := role
         content := content
         toolCalls := toolCalls
         toolCallID := toolCallID }] }

/-- `History.AddUserMessage`. -/
def History.AddUserMessage (h : History) (content : String) : History :=
  h.AddMessage "user" content [] ""

/-- `History.AddAssistantMessage`. -/
def History.AddAssistantMessage (h : History) (content : String)
    (toolCalls : List ToolCall) : History :=
  h.AddMessage "assistant" content toolCalls ""

/-- `History.AddToolMessage`. -/
def History.AddToolMessage (h : History) (toolCallID content : String) :
    History :=
  h.AddMessage "tool" content [] toolCallID

/-- `History.AddSystemMessage`. -/
def History.AddSystemMessage (h : History) (content : String) : History :=
  h.AddMessage "system" content [] ""

/-- `conversation.NewHistory`: empty log and zeroed counters, then the
system prompt is appended. -/
def NewHistory (cfg : Config) : History :=
  History.AddSystemMessage
    { messages := []
      config := cfg
      inputTokens := 0
      outputTokens := 0
      cachedTokens := 0
      offPeakInputTokens := 0
      offPeakOutputTokens := 0
      offPeakCachedTokens := 0 }
    GetSystemPrompt

/-- `History.Trim`: no-op at ≤ 20 messages; otherwise partition into system
and non-system messages (the Go loop appending to two slices is an ordered
partition, i.e. two filters), keep only the last `maxHistoryMessages`
non-system messages (`otherMessages[len-max:]` = `drop (len - max)`), and
reassemble system-messages-first. -/
def History.Trim (h : History) : History :=
  if h.messages.length ≤ 20 then h
  else
    let systemMessages := h.messages.filter (fun m => m.role == "system")
    let otherMessages := h.messages.filter (fun m => m.role != "system")
    let maxMessages := h.config.maxHistoryMessages
    let kept := if otherMessages.length > maxMessages
      then otherMessages.drop (otherMessages.length - maxMessages)
      else otherMessages
    { h with messages := systemMessages ++ kept }

/-- `History.Clear`: keeps only `h.messages[0]` (the system prompt) and
zeroes every counter.  The unguarded index is modelled by `none` on an
empty log (the Go code would panic there). -/
def History.Clear (h : History) : Option History :=
  match h.messages with
  | [] => none
  | systemPrompt :: _ =>
    some { h with
           messages := [systemPrompt]
           inputTokens := 0
           outputTokens := 0
           cachedTokens := 0
           offPeakInputTokens := 0
           offPeakOutputTokens := 0
           offPeakCachedTokens := 0 }

/-- The off-peak test of `History.UpdateTokenUsage`, on the UTC hour and
minute read from the wall clock:
`(hour == 16 && minute >= 30) || (hour > 16) || (hour == 0 && minute <= 30)`. -/
def isOffPeakTime (hour minute : Nat) : Bool :=
  (hour == 16 && minute >= 30) || (hour > 16) || (hour == 0 && minute <= 30)

/-- `History.UpdateTokenUsage`: always adds to the total counters, and adds
to the off-peak counters as well when the clock reading is off-peak.  The
hour/minute of `time.Now().UTC()` are explicit arguments. -/
def History.UpdateTokenUsage (h : History) (hour minute : Nat)
    (inputTokens outputTokens cachedTokens : Int) : History :=
  let isOffPeak := isOffPeakTime hour minute
  let h' := { h with
    inputTokens := h.inputTokens + inputTokens
    outputTokens := h.outputTokens + outputTokens
    cachedTokens := h.cachedTokens + cachedTokens }
  if isOffPeak then
    { h' with
      offPeakInputTokens := h'.offPeakInputTokens + inputTokens
      offPeakOutputTokens := h'.offPeakOutputTokens + outputTokens
      offPeakCachedTokens := h'.offPeakCachedTokens + cachedTokens }
  else h'

/-- The off-peak window as the specification words it, as a proposition. -/
def OffPeakWindow (hour minute : Nat) : Prop :=
  (hour = 16 ∧ 30 ≤ minute) ∨ 16 < hour ∨ (hour = 0 ∧ minute ≤ 30)

instance (hour minute : Nat) : Decidable (OffPeakWindow hour minute) := by
  unfold OffPeakWindow
  infer_instance

/-- The implicit invariant of the history store: the message list is
non-empty and its first message is the system prompt (role "system"). -/
def SystemSeeded (h : History) : Prop :=
  ∃ m rest, h.messages = m :: rest ∧ m.role = "system"

/-- A 21-message example history (one system prompt, twenty user
messages) used to witness the trimming behaviour. -/
def exSystemMessage : ConversationMessage :=
  { role := "system", content := "prompt", toolCalls := [], toolCallID := "" }

/-- An example user message. -/
def exUserMessage : ConversationMessage :=
  { role := "user", content := "m", toolCalls := [], toolCallID := "" }

/-- Example history over the trim threshold. -/
def exHistory : History :=
  { messages := exSystemMessage :: List.replicate 20 exUserMessage
    config := { maxHistoryMessages := 15 }
    inputTokens := 0
    outputTokens := 0
    cachedTokens := 0
    offPeakInputTokens := 0
    offPeakOutputTokens := 0
    offPeakCachedTokens := 0 }

/-- `api.EventType` (internal/api/types.go). -/
inductive EventType where
  | content
  | reasoning
  | toolCall
  | error
  | done
deriving Repr, DecidableEq

/-- `api.StreamEvent` (internal/api/types.go).  Unspecified fields default
to their Go zero values; `Error` (a Go `error`) is modelled as its message
string. -/
structure StreamEvent where
  type : EventType
  content : String := ""
  reasoningContent : String := ""
  toolCalls : List ToolCall := []
  error : Option String := none
  usage : Option TokenUsage := none
deriving Repr, DecidableEq

/-- One tool-call delta of the transport response
(`openai.ToolCall` inside `ChatCompletionStreamChoiceDelta`): an optional
index (`Index *int` — `nil` deltas are skipped by the client) plus the id,
function-name and arguments fragments read by the client (zero value "").
The go-openai delta carries no reasoning field at all (see the source
comment at internal/api/client.go: the standard library lacks
`ReasoningContent`, with a TODO to fork it). -/
structure ToolCallDelta where
  index : Option Nat
  id : String := ""
  name : String := ""
  arguments : String := ""
deriving Repr, DecidableEq

/-- The fields of `openai.ChatCompletionStreamChoiceDelta` the client
reads: the content fragment and the tool-call deltas. -/
structure ChoiceDelta where
  content : String := ""
  toolCalls : List ToolCallDelta := []
deriving Repr, DecidableEq

/-- The fields of `openai.ChatCompletionStreamChoice` the client reads:
the delta and the finish reason (a string; "tool_calls" =
`openai.FinishReasonToolCalls`, zero value ""). -/
structure StreamChoice where
  delta : ChoiceDelta
  finishReason : String := ""
deriving Repr, DecidableEq

/-- The fields of `openai.ChatCompletionStreamResponse` the client reads:
the choices and the optional usage payload (`Usage *Usage`). -/
structure ChatResponse where
  choices : List StreamChoice
  usage : Option TokenUsage := none
deriving Repr, DecidableEq

/-- One result of `stream.Recv()`: a response, `io.EOF`, or another
transport error. -/
inductive RecvResult where
  | response (r : ChatResponse)
  | eof
  | failure (msg : String)
deriving Repr, DecidableEq

/-- The placeholder record appended while growing the tool-call list:
`ToolCall{Type: "function", Function: FunctionCall{}}`. -/
def emptyToolCall : ToolCall :=
  { id := "", type := "function", function := { name := "", arguments := "" } }

/-- The `for len(toolCalls) <= index` growth loop: pad with placeholders
until the list has length `max (length) (index + 1)`. -/
def growToolCalls (tcs : List ToolCall) (index : Nat) : List ToolCall :=
  tcs ++ List.replicate (index + 1 - tcs.length) emptyToolCall

/-- The per-fragment update of `toolCalls[index]`: a non-empty id
overwrites, name and arguments fragments are concatenated (the source
guards each update by a non-emptiness test; appending "" is the identity,
which the proofs use). -/
def updateToolCall (tc : ToolCall) (d : ToolCallDelta) : ToolCall :=
  let tc := if d.id != "" then { tc with id := d.id } else tc
  let tc := if d.name != "" then
      { tc with function := { tc.function with name := tc.function.name ++ d.name } }
    else tc
  if d.arguments != "" then
    { tc with function := { tc.function with arguments := tc.function.arguments ++ d.arguments } }
  else tc

/-- Processing of one tool-call delta inside the client loop
(internal/api/client.go, the body of `for _, toolCallDelta := range
delta.ToolCalls`): skip `nil` indexes, grow, update in place. -/
def applyToolCallDelta (tcs : List ToolCall) (d : ToolCallDelta) : List ToolCall :=
  match d.index with
  | none => tcs
  | some index =>
    let grown := growToolCalls tcs index
    grown.set index (updateToolCall (grown.getD index emptyToolCall) d)

/-- The tool-call assembler: the cumulative effect of the client loop's
tool-call branch on the `toolCalls` accumulator over a sequence of
fragments (the loop folds `applyToolCallDelta` over each response's deltas,
carrying the accumulator across responses, starting from the empty list). -/
def assembleToolCalls (ds : List ToolCallDelta) : List ToolCall :=
  ds.foldl applyToolCallDelta []

/-- Processing of one received response (one iteration of the client
loop before the usage check): an optional content event, the tool-call
fold, and an optional complete-tool-call event when the finish reason is
"tool_calls" and the accumulated list is non-empty.  Only `Choices[0]`
is inspected, exactly as in the source.  Returns the emitted events (in
emission order) and the updated accumulator. -/
def processResponse (tcs : List ToolCall) (r : ChatResponse) :
    List StreamEvent × List ToolCall :=
  match r.choices.head? with
  | none => ([], tcs)
  | some choice =>
    let delta := choice.delta
    let contentEvents := if delta.content != ""
      then [{ type := EventType.content, content := delta.content }]
      else ([] : List StreamEvent)
    let tcs' := delta.toolCalls.foldl applyToolCallDelta tcs
    let toolCallEvents := if choice.finishReason == "tool_calls" && tcs'.length > 0
      then [{ type := EventType.toolCall, toolCalls := tcs' }]
      else ([] : List StreamEvent)
    (contentEvents ++ toolCallEvents, tcs')

/-- The consumption loop of `Client.CreateChatCompletionStream`
(internal/api/client.go): the goroutine receives transport results until
EOF (emit one done event and stop), a transport error (emit one error
event and stop), or a response carrying a usage payload (emit the
response's events, then one done event carrying the usage, and stop).
The input list is the sequence of `stream.Recv()` results; an exhausted
list without a terminal result models a transport that has not finished
yet (Recv would block).  The goroutine's `currentContent` accumulator is
dead code (written, never read) and is omitted. -/
def streamLoop (tcs : List ToolCall) : List RecvResult → List StreamEvent
  | [] => []
  | RecvResult.eof :: _ => [{ type := EventType.done }]
  | RecvResult.failure msg :: _ =>
    [{ type := EventType.error, error := some ("stream error: " ++ msg) }]
  | RecvResult.response r :: rest =>
    let (evs, tcs') := processResponse tcs r
    match r.usage with
    | some u => evs ++ [{ type := EventType.done, usage := some u }]
    | none => evs ++ streamLoop tcs' rest

/-- A transport result that makes the client loop stop: EOF, an error, or
a usage-carrying response. -/
def isTerminalRecv : RecvResult → Bool
  | RecvResult.eof => true
  | RecvResult.failure _ => true
  | RecvResult.response r => r.usage.isSome

/-- The fragments of a delta sequence addressed to index `i`. -/
def fragmentsFor (ds : List ToolCallDelta) (i : Nat) : List ToolCallDelta :=
  ds.filter (fun d => d.index == some i)

/-- Concatenation, in arrival order, of the name fragments for index `i`. -/
def concatNames (ds : List ToolCallDelta) (i : Nat) : String :=
  (fragmentsFor ds i).foldl (fun s d => s ++ d.name) ""

/-- Concatenation, in arrival order, of the argument fragments for `i`. -/
def concatArgs (ds : List ToolCallDelta) (i : Nat) : String :=
  (fragmentsFor ds i).foldl (fun s d => s ++ d.arguments) ""

/-- The last non-empty id fragment for index `i` ("" when none arrived):
an empty id fragment never overwrites. -/
def lastId (ds : List ToolCallDelta) (i : Nat) : String :=
  ((fragmentsFor ds i).filterMap
    (fun d => if d.id == "" then none else some d.id)).getLast?.getD ""

/-- The length of the assembled list: one past the largest index seen. -/
def assembledLength (ds : List ToolCallDelta) : Nat :=
  ds.foldl (fun n d => match d.index with
    | none => n
    | some i => max n (i + 1)) 0

/-- The largest index of the sequence (0 when none). -/
def maxIndex (ds : List ToolCallDelta) : Nat :=
  (ds.filterMap ToolCallDelta.index).foldl max 0

/-- Example fragment sequence (indices 0, 0, 2: increasing then
repeating) used to witness the assembler property. -/
def exDeltas : List ToolCallDelta :=
  [{ index := some 0, id := "call_1", name := "read_", arguments := "ar" },
   { index := some 0, id := "", name := "file", arguments := "gs" },
   { index := some 2, id := "id2", name := "n", arguments := "" }]

/-- The first transport result at which the client loop stops. -/
def firstTerminal (input : List RecvResult) : Option RecvResult :=
  input.find? isTerminalRecv

/-- `ui.State` (internal/ui/model.go and config_menu.go). -/
inductive UIState where
  | ready
  | processing
  | streaming
  | waitingForInput
  | error
  | quitting
  | configMenu
deriving Repr, DecidableEq

/-- The command a controller step hands back to the Bubble Tea runtime:
keep reading the stream (`m.nextStreamMsg()`), enqueue `ExecuteToolsMsg`
(the transition into tool execution), or enqueue `StreamCompleteMsg`
(the transition back to Ready, carrying an error when the stream failed
or was cancelled). -/
inductive ControllerCmd where
  | next
  | executeTools (toolCalls : List ToolCall)
  | streamComplete (err : Option String)
deriving Repr, DecidableEq

/-- The streaming-relevant state of `ui.Model` (internal/ui/model.go).
Pure rendering state (the display message list, viewport, spinner, text
input, autocomplete and config-menu fields) and the transport handles
(`streamCtx`, `streamCancel`, `streamEvents`, `program`) are outside the
sequential semantics and omitted. -/
structure Model where
  state : UIState
  history : History
  currentContent : String
  isReasoning : Bool
  pendingToolCalls : List ToolCall
  accumulatedContent : String
  hasContent : Bool
deriving Repr, DecidableEq

/-- `Model.handleStreamEvent` (internal/ui/model.go).  The UTC hour and
minute observed by `UpdateTokenUsage`'s clock read are explicit
arguments.  `finalizeCurrentMessage` resets `currentContent` to "" when
it is non-empty (and leaves it "" otherwise), so its effect on the
modelled state is the unconditional reset; its rendering effect is
omitted, as are `removeSeekingIndicator`, the label helpers and
`updateCurrentMessage`. -/
def handleStreamEvent (m : Model) (hour minute : Nat) (event : StreamEvent) :
    Model × ControllerCmd :=
  match event.type with
  | EventType.reasoning =>
    let m := if !m.isReasoning then { m with isReasoning := true } else m
    ({ m with currentContent := m.currentContent ++ event.reasoningContent },
      ControllerCmd.next)
  | EventType.content =>
    let m := if m.isReasoning then
        { m with isReasoning := false, currentContent := "" }
      else m
    ({ m with currentContent := m.currentContent ++ event.content
              accumulatedContent := m.accumulatedContent ++ event.content
              hasContent := true }, ControllerCmd.next)
  | EventType.toolCall =>
    let m := { m with pendingToolCalls := event.toolCalls }
    let m := if m.currentContent.length > 0 then { m with currentContent := "" }
      else m
    (m, ControllerCmd.next)
  | EventType.done =>
    let m := { m with currentContent := "" }
    let m := if m.hasContent || m.pendingToolCalls.length > 0 then
        { m with history :=
            (m.history.AddAssistantMessage m.accumulatedContent m.pendingToolCalls) }
      else m
    let m : Model := match event.usage with
      | some u =>
        { m with history :=
            (m.history.UpdateTokenUsage hour minute
              u.inputTokens u.outputTokens u.cachedTokens) }
      | none => m
    if m.pendingToolCalls.length > 0 then
      (m, ControllerCmd.executeTools m.pendingToolCalls)
    else (m, ControllerCmd.streamComplete none)
  | EventType.error => (m, ControllerCmd.streamComplete event.error)

/-- The `StreamCompleteMsg` case of `Model.Update`: the controller
returns to Ready; a carried error is only rendered, never stored. -/
def handleStreamComplete (m : Model) : Model :=
  { m with state := UIState.ready }

/-- `Model.startConversation` (internal/ui/model.go): append the user
message, reset the per-turn buffers, enter Streaming.  The stream-opening
I/O (context creation, the API call, the synchronous failure branch) is
transport side-effect. -/
def startConversation (m : Model) (input : String) : Model :=
  { m with state := UIState.streaming
           history := m.history.AddUserMessage input
           currentContent := ""
           isReasoning := false
           pendingToolCalls := []
           accumulatedContent := ""
           hasContent := false }

/-- `Model.handleFollowUp` (internal/ui/commands file): like
`startConversation` but reusing History as-is — no user message. -/
def handleFollowUp (m : Model) : Model :=
  { m with state := UIState.streaming
           currentContent := ""
           isReasoning := false
           accumulatedContent := ""
           hasContent := false
           pendingToolCalls := [] }

/-- The conversion of one executor outcome into tool-message text:
`result, err := ExecuteFunction(...)`; on error the result becomes
`fmt.Sprintf("Error: %v", err)`. -/
def renderToolResult : Except String String → String
  | Except.ok r => r
  | Except.error e => "Error: " ++ e

/-- `Model.handleExecuteTools` (internal/ui/model.go): set Processing and
run each call in array order, appending one tool message per call with
that call's id, error or not.  The Tool Executor
(`fileOps.ExecuteFunction`) is an external collaborator, passed as an
oracle. -/
def handleExecuteTools (exec : ToolCall → Except String String) (m : Model)
    (toolCalls : List ToolCall) : Model :=
  { m with state := UIState.processing
           history := toolCalls.foldl
             (fun h tc => h.AddToolMessage tc.id (renderToolResult (exec tc)))
             m.history }

/-- One controller step on a stream event, keeping only the model. -/
def stepModel (hour minute : Nat) (m : Model) (event : StreamEvent) : Model :=
  (handleStreamEvent m hour minute event).1

/-- The controller consuming a sequence of stream events in order. -/
def processEvents (hour minute : Nat) (m : Model) (events : List StreamEvent) :
    Model :=
  events.foldl (stepModel hour minute) m

/-- A content-delta event carrying the fragment `s`. -/
def contentEvent (s : String) : StreamEvent :=
  { type := EventType.content, content := s }

/-- A freshly constructed model over a fresh history. -/
def exModel0 : Model :=
  { state := UIState.ready
    history := NewHistory { maxHistoryMessages := 15 }
    currentContent := ""
    isReasoning := false
    pendingToolCalls := []
    accumulatedContent := ""
    hasContent := false }

/-- The example model after `startConversation "hi"` and the content
deltas "Hel", "lo". -/
def exStreamedModel : Model :=
  processEvents 16 30 (startConversation exModel0 "hi")
    [contentEvent "Hel", contentEvent "lo"]

/-- Go `strings.Count`'s scanning core for a non-empty pattern: count
non-overlapping instances left to right, jumping past each match (the
source's `Index`/reslice loop).  The match branch continues at
`tl.drop (pat.length - 1)`, which for a non-empty pattern is
`(c :: tl).drop pat.length`, keeping the recursion on a shorter list. -/
def countNonOverlap : List Char → List Char → Nat
  | [], _ => 0
  | c :: tl, pat =>
    if pat.isPrefixOf (c :: tl) then
      1 + countNonOverlap (tl.drop (pat.length - 1)) pat
    else countNonOverlap tl pat
termination_by s _ => s.length
decreasing_by
  · simp [List.length_drop]
    omega
  · simp

/-- Go `strings.Count(s, substr)`: for the empty pattern, one more than
the rune count (text is modelled as a rune list); otherwise the
non-overlapping scan. -/
def stringCount (s pat : List Char) : Nat :=
  if pat.isEmpty then s.length + 1 else countNonOverlap s pat

/-- The scanning core of Go `strings.Replace(s, old, new, 1)` for a
non-empty pattern: copy until the first match, splice in the
replacement, keep the remainder. -/
def replaceAux : List Char → List Char → List Char → List Char
  | [], _, _ => []
  | c :: tl, old, repl =>
    if old.isPrefixOf (c :: tl) then repl ++ tl.drop (old.length - 1)
    else c :: replaceAux tl old repl

/-- Go `strings.Replace(s, old, new, 1)`: an empty pattern inserts the
replacement at the start; otherwise replace the first match. -/
def replaceFirst (s old repl : List Char) : List Char :=
  if old.isEmpty then repl ++ s else replaceAux s old repl

/-- `FileOperations.editFile` (internal/functions), its pure core: path
normalization and the read are the "readable file" premise (the content
is the argument), and the returned `.ok` value is what is written back;
`.error` models the early error return, after which nothing is written
and the file is unchanged. -/
def editFile (content originalSnippet newSnippet : List Char) :
    Except String (List Char) :=
  let occurrences := stringCount content originalSnippet
  if occurrences = 0 then Except.error "original snippet not found in file"
  else if occurrences > 1 then
    Except.error ("ambiguous edit: " ++ toString occurrences ++
      " matches found for the snippet")
  else Except.ok (replaceFirst content originalSnippet newSnippet)

/-- The snippet occurs at character position `i` of the content. -/
def occursAt (content pat : List Char) (i : Nat) : Bool :=
  pat.isPrefixOf (content.drop i)

theorem offPeak_bool_iff (hour minute : Nat) :
    isOffPeakTime hour minute = true ↔ OffPeakWindow hour minute := by
  simp only [isOffPeakTime, OffPeakWindow, Bool.or_eq_true, Bool.and_eq_true,
    beq_iff_eq, decide_eq_true_eq]
  tauto

/-- C8: every `UpdateTokenUsage` call adds the given amounts to the three
total counters unconditionally, adds them to the three off-peak counters
exactly when the observed UTC time is in the off-peak window
(hour = 16 and minute ≥ 30, or hour > 16, or hour = 0 and minute ≤ 30),
leaves the message log alone, and the boundary classifications hold:
16:30 and 00:30 are off-peak, 16:29 and 00:31 are regular. -/
theorem updateTokenUsage_spec (h : History) (hour minute : Nat) (i o c : Int) :
    ((h.UpdateTokenUsage hour minute i o c).inputTokens = h.inputTokens + i ∧
     (h.UpdateTokenUsage hour minute i o c).outputTokens = h.outputTokens + o ∧
     (h.UpdateTokenUsage hour minute i o c).cachedTokens = h.cachedTokens + c) ∧
    ((h.UpdateTokenUsage hour minute i o c).offPeakInputTokens =
       h.offPeakInputTokens + (if OffPeakWindow hour minute then i else 0) ∧
     (h.UpdateTokenUsage hour minute i o c).offPeakOutputTokens =
       h.offPeakOutputTokens + (if OffPeakWindow hour minute then o else 0) ∧
     (h.UpdateTokenUsage hour minute i o c).offPeakCachedTokens =
       h.offPeakCachedTokens + (if OffPeakWindow hour minute then c else 0)) ∧
    (h.UpdateTokenUsage hour minute i o c).messages = h.messages ∧
    (OffPeakWindow 16 30 ∧ ¬OffPeakWindow 16 29 ∧
     OffPeakWindow 0 30 ∧ ¬OffPeakWindow 0 31) := by
  have hbound : OffPeakWindow 16 30 ∧ ¬OffPeakWindow 16 29 ∧
      OffPeakWindow 0 30 ∧ ¬OffPeakWindow 0 31 := by
    refine ⟨?_, ?_, ?_, ?_⟩ <;> simp [OffPeakWindow]
  by_cases hop : OffPeakWindow hour minute
  · have hb : isOffPeakTime hour minute = true :=
      (offPeak_bool_iff hour minute).mpr hop
    simp [History.UpdateTokenUsage, hb, hop, hbound]
  · have hb : isOffPeakTime hour minute = false := by
      cases hcase : isOffPeakTime hour minute with
      | false => rfl
      | true => exact absurd ((offPeak_bool_iff hour minute).mp hcase) hop
    simp [History.UpdateTokenUsage, hb, hop, hbound]

/-- `Trim` is the identity at or below 20 messages. -/
theorem trim_of_le (h : History) (hle : h.messages.length ≤ 20) :
    h.Trim = h := by
  simp [History.Trim, hle]

/-- Above 20 messages, `Trim` keeps the system messages (in order) followed
by the last `maxHistoryMessages` non-system messages (in order); the inner
guard of the source merges into a single `drop` because `len - max = 0`
when `len ≤ max`. -/
theorem trim_of_gt (h : History) (hgt : 20 < h.messages.length) :
    h.Trim = { h with messages :=
      (h.messages.filter (fun m => m.role == "system") ++
        (h.messages.filter (fun m => m.role != "system")).drop
          ((h.messages.filter (fun m => m.role != "system")).length -
            h.config.maxHistoryMessages)) } := by
  have hne : ¬ h.messages.length ≤ 20 := by omega
  simp only [History.Trim, hne, if_false]
  split
  · rfl
  · rename_i hlen
    have hz : (h.messages.filter (fun m => m.role != "system")).length -
        h.config.maxHistoryMessages = 0 := by omega
    rw [hz, List.drop_zero]

/-- C9: `NewHistory` establishes the system-first invariant, `AddMessage`
(hence every wrapper), `Trim` and `Clear` preserve it, and under the
invariant `Clear`'s unguarded access to the first message cannot panic
(it returns `some`). -/
theorem history_systemSeeded_invariant :
    (∀ cfg : Config, SystemSeeded (NewHistory cfg)) ∧
    (∀ (h : History) (role content : String) (tcs : List ToolCall)
       (tcid : String), SystemSeeded h →
         SystemSeeded (h.AddMessage role content tcs tcid)) ∧
    (∀ h : History, SystemSeeded h → SystemSeeded h.Trim) ∧
    (∀ h : History, SystemSeeded h →
       ∃ h', h.Clear = some h' ∧ SystemSeeded h') := by
  refine ⟨?_, ?_, ?_, ?_⟩
  · intro cfg
    exact ⟨_, [], rfl, rfl⟩
  · rintro h role content tcs tcid ⟨m, rest, hmsg, hrole⟩
    refine ⟨m, rest ++ [{ role := role, content := content, toolCalls := tcs, toolCallID := tcid }], ?_, hrole⟩
    simp [History.AddMessage, hmsg]
  · rintro h ⟨m, rest, hmsg, hrole⟩
    by_cases hle : h.messages.length ≤ 20
    · rw [trim_of_le h hle]
      exact ⟨m, rest, hmsg, hrole⟩
    · rw [trim_of_gt h (by omega)]
      have hfil : h.messages.filter (fun x => x.role == "system") =
          m :: rest.filter (fun x => x.role == "system") := by
        rw [hmsg]
        simp [List.filter_cons, hrole]
      exact ⟨m, rest.filter (fun x => x.role == "system") ++
        (h.messages.filter (fun x => x.role != "system")).drop
          ((h.messages.filter (fun x => x.role != "system")).length -
            h.config.maxHistoryMessages), by simp [hfil], hrole⟩
  · rintro h ⟨m, rest, hmsg, hrole⟩
    unfold History.Clear
    rw [hmsg]
    exact ⟨_, rfl, m, [], rfl, hrole⟩

/-- Witness for `history_systemSeeded_invariant` at a concrete history:
the freshly constructed store satisfies the invariant, still satisfies it
after appending a user message, and its `Clear` succeeds. -/
theorem history_systemSeeded_invariant_witness :
    SystemSeeded ((NewHistory ⟨15⟩).AddUserMessage "hi") ∧
    ∃ h', (NewHistory ⟨15⟩).Clear = some h' ∧ SystemSeeded h' := by
  have h1 := history_systemSeeded_invariant.1 ⟨15⟩
  have h2 := history_systemSeeded_invariant.2.1 (NewHistory ⟨15⟩)
    "user" "hi" [] "" h1
  have h3 := history_systemSeeded_invariant.2.2.2 (NewHistory ⟨15⟩) h1
  exact ⟨h2, h3⟩

/-- `Trim` is idempotent. -/
theorem trim_idem (h : History) : h.Trim.Trim = h.Trim := by
  by_cases hle : h.messages.length ≤ 20
  · rw [trim_of_le h hle, trim_of_le h hle]
  · have hgt : 20 < h.messages.length := Nat.lt_of_not_le hle
    rw [trim_of_gt h hgt]
    set S := h.messages.filter (fun m => m.role == "system") with hS
    set O := h.messages.filter (fun m => m.role != "system") with hO
    set K := O.drop (O.length - h.config.maxHistoryMessages) with hK
    have hfS : (S ++ K).filter (fun m => m.role == "system") = S := by
      rw [List.filter_append]
      have h1 : S.filter (fun m => m.role == "system") = S := by
        apply List.filter_eq_self.mpr
        intro a ha
        rw [hS] at ha
        exact (List.mem_filter.mp ha).2
      have h2 : K.filter (fun m => m.role == "system") = [] := by
        apply List.filter_eq_nil_iff.mpr
        intro a ha
        rw [hK] at ha
        have haO : a ∈ O := List.mem_of_mem_drop ha
        rw [hO] at haO
        have hq : (a.role != "system") = true := (List.mem_filter.mp haO).2
        simp only [bne_iff_ne, ne_eq] at hq
        simp [hq]
      rw [h1, h2, List.append_nil]
    have hfO : (S ++ K).filter (fun m => m.role != "system") = K := by
      rw [List.filter_append]
      have h3 : S.filter (fun m => m.role != "system") = [] := by
        apply List.filter_eq_nil_iff.mpr
        intro a ha
        rw [hS] at ha
        have hp : (a.role == "system") = true := (List.mem_filter.mp ha).2
        simp only [beq_iff_eq] at hp
        simp [hp]
      have h4 : K.filter (fun m => m.role != "system") = K := by
        apply List.filter_eq_self.mpr
        intro a ha
        rw [hK] at ha
        have haO : a ∈ O := List.mem_of_mem_drop ha
        rw [hO] at haO
        exact (List.mem_filter.mp haO).2
      rw [h3, h4, List.nil_append]
    have hKlen : K.length ≤ h.config.maxHistoryMessages := by
      rw [hK, List.length_drop]
      omega
    have hdrop : K.drop (K.length - h.config.maxHistoryMessages) = K := by
      have : K.length - h.config.maxHistoryMessages = 0 := by omega
      rw [this, List.drop_zero]
    by_cases hle2 : (S ++ K).length ≤ 20
    · exact trim_of_le _ hle2
    · rw [trim_of_gt _ (Nat.lt_of_not_le hle2)]
      simp [hfS, hfO, hdrop]

/-- `Trim` never drops a system message. -/
theorem trim_keeps_system (h : History) :
    ∀ m ∈ h.messages, m.role = "system" → m ∈ h.Trim.messages := by
  intro m hm hrole
  by_cases hle : h.messages.length ≤ 20
  · rw [trim_of_le h hle]
    exact hm
  · rw [trim_of_gt h (Nat.lt_of_not_le hle)]
    exact List.mem_append_left _ (List.mem_filter.mpr ⟨hm, by simp [hrole]⟩)

/-- C7: `Trim` is a no-op at ≤ 20 messages; above that it keeps all system
messages first, followed by the most recent `maxHistoryMessages` non-system
messages with relative order preserved (both parts given by order-preserving
`filter` and a `drop` of all but the last `maxHistoryMessages`); `Trim` is
idempotent; and `Trim` never removes a system message. -/
theorem trim_spec (h : History) :
    (h.messages.length ≤ 20 → h.Trim = h) ∧
    (20 < h.messages.length →
      h.Trim.messages =
        (h.messages.filter (fun m => m.role == "system") ++
          (h.messages.filter (fun m => m.role != "system")).drop
            ((h.messages.filter (fun m => m.role != "system")).length -
              h.config.maxHistoryMessages))) ∧
    h.Trim.Trim = h.Trim ∧
    (∀ m ∈ h.messages, m.role = "system" → m ∈ h.Trim.messages) := by
  refine ⟨fun hle => trim_of_le h hle, fun hgt => ?_, trim_idem h,
    trim_keeps_system h⟩
  rw [trim_of_gt h hgt]

/-- Witness for `trim_spec`: the one-message fresh history is untouched by
`Trim`; the 21-message `exHistory` is trimmed to the canonical
system-first form; its system message survives. -/
theorem trim_spec_witness :
    ((NewHistory ⟨15⟩).messages.length ≤ 20 ∧
      (NewHistory ⟨15⟩).Trim = NewHistory ⟨15⟩) ∧
    (20 < exHistory.messages.length ∧
      exHistory.Trim.messages =
        (exHistory.messages.filter (fun m => m.role == "system") ++
          (exHistory.messages.filter (fun m => m.role != "system")).drop
            ((exHistory.messages.filter (fun m => m.role != "system")).length -
              exHistory.config.maxHistoryMessages))) ∧
    exSystemMessage ∈ exHistory.Trim.messages := by
  refine ⟨⟨by decide, (trim_spec (NewHistory ⟨15⟩)).1 (by decide)⟩,
    ⟨by decide, (trim_spec exHistory).2.1 (by decide)⟩,
    (trim_spec exHistory).2.2.2 exSystemMessage (by simp [exHistory]) rfl⟩

theorem getD_replicate (n i : Nat) :
    (List.replicate n emptyToolCall).getD i emptyToolCall = emptyToolCall := by
  simp only [List.getD, List.get?_eq_getElem?, List.getElem?_replicate]
  split <;> rfl

theorem getD_grow (tcs : List ToolCall) (j i : Nat) :
    (growToolCalls tcs j).getD i emptyToolCall = tcs.getD i emptyToolCall := by
  unfold growToolCalls
  rcases Nat.lt_or_ge i tcs.length with hi | hi
  · simp [List.getD, List.getElem?_append_left hi]
  · have h1 : (tcs ++ List.replicate (j + 1 - tcs.length) emptyToolCall).getD i
        emptyToolCall =
        (List.replicate (j + 1 - tcs.length) emptyToolCall).getD (i - tcs.length)
          emptyToolCall := by
      simp [List.getD, List.getElem?_append_right hi]
    have h2 : tcs.getD i emptyToolCall = emptyToolCall := by
      simp [List.getD, List.getElem?_eq_none hi]
    rw [h1, getD_replicate, h2]

theorem length_grow (tcs : List ToolCall) (j : Nat) :
    (growToolCalls tcs j).length = max tcs.length (j + 1) := by
  simp [growToolCalls]
  omega

theorem getD_set_ne (l : List ToolCall) (i j : Nat) (a : ToolCall) (h : i ≠ j) :
    (l.set i a).getD j emptyToolCall = l.getD j emptyToolCall := by
  simp [List.getD, List.getElem?_set_ne h]

theorem getD_set_self (l : List ToolCall) (i : Nat) (a : ToolCall)
    (h : i < l.length) : (l.set i a).getD i emptyToolCall = a := by
  simp [List.getD, List.getElem?_set_self, h]

theorem assemble_concat (ds : List ToolCallDelta) (d : ToolCallDelta) :
    assembleToolCalls (ds ++ [d]) = applyToolCallDelta (assembleToolCalls ds) d := by
  simp [assembleToolCalls, List.foldl_append]

theorem assembledLength_concat (ds : List ToolCallDelta) (d : ToolCallDelta) :
    assembledLength (ds ++ [d]) =
      (match d.index with
       | none => assembledLength ds
       | some i => max (assembledLength ds) (i + 1)) := by
  simp [assembledLength, List.foldl_append]

theorem fragmentsFor_concat (ds : List ToolCallDelta) (d : ToolCallDelta) (i : Nat) :
    fragmentsFor (ds ++ [d]) i =
      fragmentsFor ds i ++ (if d.index == some i then [d] else []) := by
  simp [fragmentsFor, List.filter_append, List.filter_cons]

theorem concatNames_concat (ds : List ToolCallDelta) (d : ToolCallDelta) (i : Nat) :
    concatNames (ds ++ [d]) i =
      concatNames ds i ++ (if d.index == some i then d.name else "") := by
  rw [concatNames, fragmentsFor_concat]
  by_cases hdi : (d.index == some i) = true
  · simp [hdi, List.foldl_append, concatNames]
  · simp only [Bool.not_eq_true] at hdi
    simp [hdi, concatNames]

theorem concatArgs_concat (ds : List ToolCallDelta) (d : ToolCallDelta) (i : Nat) :
    concatArgs (ds ++ [d]) i =
      concatArgs ds i ++ (if d.index == some i then d.arguments else "") := by
  rw [concatArgs, fragmentsFor_concat]
  by_cases hdi : (d.index == some i) = true
  · simp [hdi, List.foldl_append, concatArgs]
  · simp only [Bool.not_eq_true] at hdi
    simp [hdi, concatArgs]

theorem lastId_concat (ds : List ToolCallDelta) (d : ToolCallDelta) (i : Nat) :
    lastId (ds ++ [d]) i =
      if d.index == some i then
        (if d.id == "" then lastId ds i else d.id)
      else lastId ds i := by
  have hsplit : (fragmentsFor (ds ++ [d]) i).filterMap
      (fun x => if x.id == "" then none else some x.id) =
      (fragmentsFor ds i).filterMap (fun x => if x.id == "" then none else some x.id)
        ++ (if d.index == some i then
              (if d.id == "" then [] else [d.id]) else []) := by
    rw [fragmentsFor_concat, List.filterMap_append]
    by_cases hdi : d.index = some i <;>
      by_cases hid : d.id = "" <;>
      simp [hdi, hid]
  unfold lastId
  rw [hsplit]
  by_cases hdi : d.index = some i <;>
    by_cases hid : d.id = "" <;>
    simp [hdi, hid]

theorem updateToolCall_record (idv n g : String) (d : ToolCallDelta) :
    updateToolCall
      { id := idv, type := "function", function := { name := n, arguments := g } } d =
      { id := if d.id == "" then idv else d.id, type := "function",
        function := { name := n ++ d.name, arguments := g ++ d.arguments } } := by
  unfold updateToolCall
  by_cases h1 : d.id = "" <;> by_cases h2 : d.name = "" <;>
    by_cases h3 : d.arguments = "" <;>
    simp [h1, h2, h3]

/-- Closed form of the assembler: for every delta sequence (whatever the
arrival order), the accumulator has length `assembledLength ds`, and the
entry at every index `i` (placeholder `emptyToolCall` beyond the length)
has type "function", name/arguments the concatenation of the fragments
for `i` in arrival order, and as id the last non-empty id fragment. -/
theorem assemble_invariant (ds : List ToolCallDelta) :
    (assembleToolCalls ds).length = assembledLength ds ∧
    ∀ i : Nat, (assembleToolCalls ds).getD i emptyToolCall =
      { id := lastId ds i, type := "function",
        function := { name := concatNames ds i, arguments := concatArgs ds i } } := by
  induction ds using List.reverseRecOn with
  | nil =>
    constructor
    · rfl
    · intro i
      simp [assembleToolCalls, lastId, concatNames, concatArgs, fragmentsFor,
        List.getD, emptyToolCall]
  | append_singleton ds d ih =>
    obtain ⟨ihlen, ihget⟩ := ih
    rw [assemble_concat]
    cases hd : d.index with
    | none =>
      have happ : applyToolCallDelta (assembleToolCalls ds) d = assembleToolCalls ds := by
        simp [applyToolCallDelta, hd]
      constructor
      · rw [happ, ihlen, assembledLength_concat]
        simp [hd]
      · intro i
        rw [happ, ihget i, lastId_concat, concatNames_concat, concatArgs_concat]
        simp [hd]
    | some j =>
      have happ : applyToolCallDelta (assembleToolCalls ds) d =
          (growToolCalls (assembleToolCalls ds) j).set j
            (updateToolCall
              ((growToolCalls (assembleToolCalls ds) j).getD j emptyToolCall) d) := by
        simp [applyToolCallDelta, hd]
      constructor
      · rw [happ, List.length_set, length_grow, ihlen, assembledLength_concat]
        simp [hd]
      · intro i
        rcases eq_or_ne i j with rfl | hij
        · rw [happ, getD_set_self _ _ _ (by rw [length_grow]; omega), getD_grow,
            ihget i, updateToolCall_record, lastId_concat, concatNames_concat,
            concatArgs_concat]
          simp [hd]
        · rw [happ, getD_set_ne _ _ _ _ (Ne.symm hij), getD_grow, ihget i,
            lastId_concat, concatNames_concat, concatArgs_concat]
          have hne : (d.index == some i) = false := by
            simp [hd]
            exact Ne.symm hij
          simp [hne]

theorem foldl_max_acc (l : List Nat) (a : Nat) :
    l.foldl max a = max a (l.foldl max 0) := by
  induction l generalizing a with
  | nil => simp
  | cons i l ih =>
    simp only [List.foldl_cons]
    rw [ih (max a i), ih (max 0 i)]
    omega

theorem foldl_maxsucc_shift (l : List Nat) (i : Nat) :
    l.foldl (fun a j => max a (j + 1)) (i + 1) = l.foldl max i + 1 := by
  induction l generalizing i with
  | nil => rfl
  | cons j l ih =>
    simp only [List.foldl_cons]
    rw [show max (i + 1) (j + 1) = (max i j) + 1 by omega, ih (max i j)]

theorem assembledLength_aux (ds : List ToolCallDelta) (n : Nat) :
    ds.foldl (fun n d => match d.index with
      | none => n
      | some i => max n (i + 1)) n =
    (ds.filterMap ToolCallDelta.index).foldl (fun a i => max a (i + 1)) n := by
  induction ds generalizing n with
  | nil => rfl
  | cons d ds ih =>
    cases hd : d.index with
    | none => simp [List.filterMap_cons, hd, ih]
    | some j => simp [List.filterMap_cons, hd, ih]

theorem indices_ne_nil (ds : List ToolCallDelta)
    (hidx : ∀ d ∈ ds, d.index.isSome = true) (hne : ds ≠ []) :
    ds.filterMap ToolCallDelta.index ≠ [] := by
  cases ds with
  | nil => exact absurd rfl hne
  | cons d tl =>
    have hm := hidx d (List.mem_cons_self d tl)
    cases hdv : d.index with
    | none => rw [hdv] at hm; simp at hm
    | some i => simp [List.filterMap_cons, hdv]

/-- C1: for every sequence of tool-call delta fragments whose indices are
all present and arrive in increasing-then-repeating (non-decreasing)
order, the assembled list has length `maxIndex + 1`, and the record at
every index — including the untouched placeholders at gap indices — has
type "function", name and arguments equal to the concatenation of that
index's fragments in arrival order, and as id the last non-empty id
fragment (an empty id fragment never overwrites).  The ordering
hypothesis is stated because the claim states it; the proof
(`assemble_invariant`) never uses it — the property holds for every
arrival order. -/
theorem assembler_spec (ds : List ToolCallDelta)
    (hidx : ∀ d ∈ ds, d.index.isSome = true)
    (horder : List.Chain' (fun a b => a ≤ b) (ds.filterMap ToolCallDelta.index))
    (hne : ds ≠ []) :
    (assembleToolCalls ds).length = maxIndex ds + 1 ∧
    ∀ i : Nat, (assembleToolCalls ds).getD i emptyToolCall =
      { id := lastId ds i, type := "function",
        function := { name := concatNames ds i, arguments := concatArgs ds i } } := by
  constructor
  · rw [(assemble_invariant ds).1]
    unfold assembledLength maxIndex
    rw [assembledLength_aux ds 0]
    cases hidxs : ds.filterMap ToolCallDelta.index with
    | nil => exact absurd hidxs (indices_ne_nil ds hidx hne)
    | cons i l =>
      simp only [List.foldl_cons]
      rw [show max 0 (i + 1) = (max 0 i) + 1 by omega, foldl_maxsucc_shift l (max 0 i)]
  · exact (assemble_invariant ds).2

/-- Witness for `assembler_spec` at the concrete fragment sequence
`exDeltas` (indices 0, 0, 2, leaving index 1 a placeholder). -/
theorem assembler_spec_witness :
    (assembleToolCalls exDeltas).length = maxIndex exDeltas + 1 ∧
    (assembleToolCalls exDeltas).getD 1 emptyToolCall =
      { id := lastId exDeltas 1, type := "function",
        function := { name := concatNames exDeltas 1,
                      arguments := concatArgs exDeltas 1 } } :=
  ⟨(assembler_spec exDeltas (by decide)
      (by simp [exDeltas, List.filterMap_cons, List.chain'_cons, List.chain'_singleton])
      (by decide)).1,
   (assembler_spec exDeltas (by decide)
      (by simp [exDeltas, List.filterMap_cons, List.chain'_cons, List.chain'_singleton])
      (by decide)).2 1⟩

theorem processResponse_event_types (tcs : List ToolCall) (r : ChatResponse) :
    ∀ ev ∈ (processResponse tcs r).1,
      ev.type = EventType.content ∨ ev.type = EventType.toolCall := by
  intro ev hev
  unfold processResponse at hev
  cases hc : r.choices.head? <;> rw [hc] at hev
  · simp at hev
  · simp only at hev
    rcases List.mem_append.mp hev with h | h <;> split at h <;>
      simp at h <;> subst h <;> simp

/-- C5: every run of the client's consumption loop that reaches a
terminal transport result emits a sequence ending in exactly one terminal
event: all earlier events are content or tool-call deltas, the last event
is the single done (with the usage payload attached when a usage-carrying
response ended the transport, and without one on EOF) or the single
mid-stream error event, after which nothing follows. -/
theorem stream_terminal_spec (input : List RecvResult) (tcs : List ToolCall)
    (hterm : ∃ r ∈ input, isTerminalRecv r = true) :
    ∃ init e, streamLoop tcs input = init ++ [e] ∧
      (∀ ev ∈ init, ev.type ≠ EventType.done ∧ ev.type ≠ EventType.error) ∧
      (e.type = EventType.done ∨ e.type = EventType.error) ∧
      (match firstTerminal input with
       | some RecvResult.eof => e = { type := EventType.done }
       | some (RecvResult.failure m) =>
           e = { type := EventType.error, error := some ("stream error: " ++ m) }
       | some (RecvResult.response r) =>
           e = { type := EventType.done, usage := r.usage }
       | none => False) := by
  induction input generalizing tcs with
  | nil => simp at hterm
  | cons r rest ih =>
    cases r with
    | eof =>
      refine ⟨[], { type := EventType.done }, rfl, by simp, Or.inl rfl, ?_⟩
      simp [firstTerminal, List.find?, isTerminalRecv]
    | failure m =>
      refine ⟨[], { type := EventType.error, error := some ("stream error: " ++ m) },
        rfl, by simp, Or.inr rfl, ?_⟩
      simp [firstTerminal, List.find?, isTerminalRecv]
    | response resp =>
      cases hu : resp.usage with
      | some u =>
        refine ⟨(processResponse tcs resp).1,
          { type := EventType.done, usage := some u }, ?_, ?_, Or.inl rfl, ?_⟩
        · simp [streamLoop, hu]
        · intro ev hev
          rcases processResponse_event_types tcs resp ev hev with h | h <;>
            exact ⟨by simp [h], by simp [h]⟩
        · have hft : firstTerminal (RecvResult.response resp :: rest) =
              some (RecvResult.response resp) := by
            simp [firstTerminal, List.find?, isTerminalRecv, hu]
          rw [hft]
          show ({ type := EventType.done, usage := some u } : StreamEvent) =
            { type := EventType.done, usage := resp.usage }
          rw [hu]
      | none =>
        have hterm2 : ∃ x ∈ rest, isTerminalRecv x = true := by
          rcases hterm with ⟨x, hx, hxt⟩
          rcases List.mem_cons.mp hx with rfl | hx2
          · rw [isTerminalRecv, hu] at hxt
            simp at hxt
          · exact ⟨x, hx2, hxt⟩
        obtain ⟨init2, e2, heq, hinit, hkind, hmatch⟩ :=
          ih ((processResponse tcs resp).2) hterm2
        refine ⟨(processResponse tcs resp).1 ++ init2, e2, ?_, ?_, hkind, ?_⟩
        · simp [streamLoop, hu, heq]
        · intro ev hev
          rcases List.mem_append.mp hev with h | h
          · rcases processResponse_event_types tcs resp ev h with h2 | h2 <;>
              exact ⟨by simp [h2], by simp [h2]⟩
          · exact hinit ev h
        · have hft : firstTerminal (RecvResult.response resp :: rest) =
              firstTerminal rest := by
            simp [firstTerminal, List.find?, isTerminalRecv, hu]
          rw [hft]
          exact hmatch

/-- Witness for `stream_terminal_spec`: a concrete run (one content-only
response, then EOF). -/
theorem stream_terminal_spec_witness :
    (∃ r ∈ [RecvResult.response
        { choices := [{ delta := { content := "hi", toolCalls := [] } }] },
      RecvResult.eof], isTerminalRecv r = true) ∧
    ∃ init e,
      streamLoop []
        [RecvResult.response
          { choices := [{ delta := { content := "hi", toolCalls := [] } }] },
         RecvResult.eof] = init ++ [e] ∧
      (∀ ev ∈ init, ev.type ≠ EventType.done ∧ ev.type ≠ EventType.error) ∧
      (e.type = EventType.done ∨ e.type = EventType.error) ∧
      (match firstTerminal
          [RecvResult.response
            { choices := [{ delta := { content := "hi", toolCalls := [] } }] },
           RecvResult.eof] with
       | some RecvResult.eof => e = { type := EventType.done }
       | some (RecvResult.failure m) =>
           e = { type := EventType.error, error := some ("stream error: " ++ m) }
       | some (RecvResult.response r) =>
           e = { type := EventType.done, usage := r.usage }
       | none => False) :=
  ⟨⟨RecvResult.eof, by decide, by decide⟩,
   stream_terminal_spec _ [] ⟨RecvResult.eof, by decide, by decide⟩⟩

/-- C6 (what the code actually does): the stream client never emits a
reasoning event on any input — the go-openai response delta it consumes
has no reasoning field, and the loop emits only content, tool-call, done
and error events (internal/api/client.go explicitly skips reasoning with
a TODO), even though `EventType.reasoning` exists and the controller
handles it. -/
theorem stream_never_emits_reasoning (input : List RecvResult) (tcs : List ToolCall) :
    (streamLoop tcs input).filter (fun e => e.type == EventType.reasoning) = [] := by
  induction input generalizing tcs with
  | nil => rfl
  | cons r rest ih =>
    cases r with
    | eof => rfl
    | failure m => rfl
    | response resp =>
      have hpr : (processResponse tcs resp).1.filter
          (fun e => e.type == EventType.reasoning) = [] := by
        apply List.filter_eq_nil_iff.mpr
        intro ev hev
        rcases processResponse_event_types tcs resp ev hev with h | h <;> simp [h]
      cases hu : resp.usage with
      | some u => simp [streamLoop, hu, List.filter_append, hpr]
      | none => simp [streamLoop, hu, List.filter_append, hpr, ih]

theorem updateTokenUsage_messages (h : History) (hour minute : Nat) (i o c : Int) :
    (h.UpdateTokenUsage hour minute i o c).messages = h.messages := by
  cases hop : isOffPeakTime hour minute <;>
    simp [History.UpdateTokenUsage, hop]

theorem updateTokenUsage_totals (h : History) (hour minute : Nat) (i o c : Int) :
    (h.UpdateTokenUsage hour minute i o c).inputTokens = h.inputTokens + i ∧
    (h.UpdateTokenUsage hour minute i o c).outputTokens = h.outputTokens + o ∧
    (h.UpdateTokenUsage hour minute i o c).cachedTokens = h.cachedTokens + c := by
  cases hop : isOffPeakTime hour minute <;>
    simp [History.UpdateTokenUsage, hop]

theorem updateTokenUsage_inputTokens (h : History) (hour minute : Nat) (i o c : Int) :
    (h.UpdateTokenUsage hour minute i o c).inputTokens = h.inputTokens + i := by
  cases hop : isOffPeakTime hour minute <;> simp [History.UpdateTokenUsage, hop]

theorem updateTokenUsage_outputTokens (h : History) (hour minute : Nat) (i o c : Int) :
    (h.UpdateTokenUsage hour minute i o c).outputTokens = h.outputTokens + o := by
  cases hop : isOffPeakTime hour minute <;> simp [History.UpdateTokenUsage, hop]

theorem updateTokenUsage_cachedTokens (h : History) (hour minute : Nat) (i o c : Int) :
    (h.UpdateTokenUsage hour minute i o c).cachedTokens = h.cachedTokens + c := by
  cases hop : isOffPeakTime hour minute <;> simp [History.UpdateTokenUsage, hop]

theorem processContentEvents (hour minute : Nat) (fs : List String) :
    ∀ m : Model,
      (processEvents hour minute m (fs.map contentEvent)).accumulatedContent =
        fs.foldl (fun acc s => acc ++ s) m.accumulatedContent ∧
      (processEvents hour minute m (fs.map contentEvent)).history = m.history ∧
      (processEvents hour minute m (fs.map contentEvent)).pendingToolCalls =
        m.pendingToolCalls ∧
      (processEvents hour minute m (fs.map contentEvent)).hasContent =
        (m.hasContent || !fs.isEmpty) := by
  induction fs with
  | nil =>
    intro m
    exact ⟨rfl, rfl, rfl, by simp [processEvents]⟩
  | cons s fs ih =>
    intro m
    have hstep : stepModel hour minute m (contentEvent s) =
        { m with currentContent := (if m.isReasoning then "" else m.currentContent) ++ s
                 isReasoning := false
                 accumulatedContent := m.accumulatedContent ++ s
                 hasContent := true } := by
      unfold stepModel handleStreamEvent contentEvent
      by_cases hr : m.isReasoning = true
      · simp [hr]
      · simp only [Bool.not_eq_true] at hr
        simp [hr]
    obtain ⟨h1, h2, h3, h4⟩ := ih (stepModel hour minute m (contentEvent s))
    have hfold : processEvents hour minute m ((s :: fs).map contentEvent) =
        processEvents hour minute (stepModel hour minute m (contentEvent s))
          (fs.map contentEvent) := by
      simp [processEvents]
    refine ⟨?_, ?_, ?_, ?_⟩
    · rw [hfold, h1, hstep]
      simp
    · rw [hfold, h2, hstep]
    · rw [hfold, h3, hstep]
    · rw [hfold, h4, hstep]
      simp

/-- C2: on the done event, the controller appends exactly one assistant
message — carrying the full accumulated content and the pending tool-call
list — if and only if content was received or tool calls are pending;
forwards a present usage payload to `UpdateTokenUsage`; and hands back
the transition into tool execution when tool calls are pending and the
transition back to Ready otherwise.  The accumulated content is the
concatenation, in arrival order, of the turn's content deltas (second
conjunct group). -/
theorem controller_done_spec :
    (∀ (m : Model) (hour minute : Nat) (usage : Option TokenUsage),
      ((m.hasContent = true ∨ m.pendingToolCalls ≠ []) →
        (stepModel hour minute m { type := EventType.done, usage := usage }).history.messages =
          m.history.messages ++
            [{ role := "assistant", content := m.accumulatedContent,
               toolCalls := m.pendingToolCalls, toolCallID := "" }]) ∧
      ((m.hasContent = false ∧ m.pendingToolCalls = []) →
        (stepModel hour minute m { type := EventType.done, usage := usage }).history.messages =
          m.history.messages) ∧
      (∀ u, usage = some u →
        (stepModel hour minute m { type := EventType.done, usage := usage }).history.inputTokens =
          m.history.inputTokens + u.inputTokens ∧
        (stepModel hour minute m { type := EventType.done, usage := usage }).history.outputTokens =
          m.history.outputTokens + u.outputTokens ∧
        (stepModel hour minute m { type := EventType.done, usage := usage }).history.cachedTokens =
          m.history.cachedTokens + u.cachedTokens) ∧
      (usage = none →
        (stepModel hour minute m { type := EventType.done, usage := usage }).history.inputTokens =
          m.history.inputTokens ∧
        (stepModel hour minute m { type := EventType.done, usage := usage }).history.outputTokens =
          m.history.outputTokens ∧
        (stepModel hour minute m { type := EventType.done, usage := usage }).history.cachedTokens =
          m.history.cachedTokens) ∧
      (m.pendingToolCalls ≠ [] →
        (handleStreamEvent m hour minute { type := EventType.done, usage := usage }).2 =
          ControllerCmd.executeTools m.pendingToolCalls) ∧
      (m.pendingToolCalls = [] →
        (handleStreamEvent m hour minute { type := EventType.done, usage := usage }).2 =
          ControllerCmd.streamComplete none ∧
        (handleStreamComplete
          (stepModel hour minute m { type := EventType.done, usage := usage })).state =
          UIState.ready)) ∧
    (∀ (m : Model) (hour minute : Nat) (fs : List String),
      (processEvents hour minute m (fs.map contentEvent)).accumulatedContent =
        fs.foldl (fun acc s => acc ++ s) m.accumulatedContent ∧
      (processEvents hour minute m (fs.map contentEvent)).history = m.history ∧
      (processEvents hour minute m (fs.map contentEvent)).hasContent =
        (m.hasContent || !fs.isEmpty)) := by
  constructor
  · intro m hour minute usage
    refine ⟨?_, ?_, ?_, ?_, ?_, ?_⟩
    · intro hOr
      by_cases hb : m.hasContent = true <;> by_cases hp : m.pendingToolCalls = [] <;>
        cases usage <;>
        simp [stepModel, handleStreamEvent, hb, hp, List.length_pos,
          History.AddAssistantMessage, History.AddMessage,
          updateTokenUsage_messages] <;>
        rcases hOr with h | h <;> simp_all
    · rintro ⟨h1, h2⟩
      cases usage <;>
        simp [stepModel, handleStreamEvent, h1, h2, updateTokenUsage_messages]
    · rintro u rfl
      by_cases hb : m.hasContent = true <;> by_cases hp : m.pendingToolCalls = [] <;>
        simp [stepModel, handleStreamEvent, hb, hp, List.length_pos,
          History.AddAssistantMessage, History.AddMessage,
          updateTokenUsage_inputTokens, updateTokenUsage_outputTokens,
          updateTokenUsage_cachedTokens]
    · rintro rfl
      by_cases hb : m.hasContent = true <;> by_cases hp : m.pendingToolCalls = [] <;>
        simp [stepModel, handleStreamEvent, hb, hp, List.length_pos,
          History.AddAssistantMessage, History.AddMessage]
    · intro hp
      by_cases hb : m.hasContent = true <;> cases usage <;>
        simp [handleStreamEvent, hb, hp, List.length_pos]
    · intro hp
      refine ⟨?_, rfl⟩
      by_cases hb : m.hasContent = true <;> cases usage <;>
        simp [handleStreamEvent, hb, hp]
  · intro m hour minute fs
    obtain ⟨h1, h2, _h3, h4⟩ := processContentEvents hour minute fs m
    exact ⟨h1, h2, h4⟩

/-- Witness for `controller_done_spec`: after `startConversation "hi"`
and content deltas "Hel", "lo", the accumulated content is "Hello"; the
done event appends exactly the assistant message (history grows from 2 to
3 messages) and hands back the transition to Ready. -/
theorem controller_done_spec_witness :
    (exStreamedModel.hasContent = true ∨ exStreamedModel.pendingToolCalls ≠ []) ∧
    (stepModel 16 30 exStreamedModel { type := EventType.done }).history.messages =
      exStreamedModel.history.messages ++
        [{ role := "assistant", content := exStreamedModel.accumulatedContent,
           toolCalls := exStreamedModel.pendingToolCalls, toolCallID := "" }] ∧
    exStreamedModel.accumulatedContent = "Hello" ∧
    (stepModel 16 30 exStreamedModel { type := EventType.done }).history.messages.length = 3 ∧
    (handleStreamEvent exStreamedModel 16 30 { type := EventType.done }).2 =
      ControllerCmd.streamComplete none := by
  have hOr : exStreamedModel.hasContent = true ∨ exStreamedModel.pendingToolCalls ≠ [] :=
    Or.inl rfl
  refine ⟨hOr, (controller_done_spec.1 exStreamedModel 16 30 none).1 hOr, rfl, rfl, ?_⟩
  exact ((controller_done_spec.1 exStreamedModel 16 30 none).2.2.2.2.2 rfl).1

theorem foldl_addToolMessage (exec : ToolCall → Except String String)
    (tcs : List ToolCall) :
    ∀ h : History,
      (tcs.foldl (fun h tc => h.AddToolMessage tc.id (renderToolResult (exec tc)))
        h).messages =
      h.messages ++ tcs.map (fun tc =>
        { role := "tool", content := renderToolResult (exec tc),
          toolCalls := [], toolCallID := tc.id }) := by
  induction tcs with
  | nil => intro h; simp
  | cons tc tl ih =>
    intro h
    simp only [List.foldl_cons, List.map_cons]
    rw [ih]
    simp [History.AddToolMessage, History.AddMessage]

/-- C3: for every pending tool-call list and every executor behaviour,
the controller appends exactly one tool-role message per call, in array
order, each carrying that call's id; a failing call contributes its
human-readable error text as the message content and the remaining calls
still execute (the appended list always has one entry per call). -/
theorem executeTools_spec (exec : ToolCall → Except String String) (m : Model)
    (toolCalls : List ToolCall) :
    (handleExecuteTools exec m toolCalls).history.messages =
      m.history.messages ++ toolCalls.map (fun tc =>
        { role := "tool", content := renderToolResult (exec tc),
          toolCalls := [], toolCallID := tc.id }) ∧
    (handleExecuteTools exec m toolCalls).history.messages.length =
      m.history.messages.length + toolCalls.length ∧
    (handleExecuteTools exec m toolCalls).state = UIState.processing := by
  refine ⟨foldl_addToolMessage exec toolCalls m.history, ?_, rfl⟩
  have h := foldl_addToolMessage exec toolCalls m.history
  unfold handleExecuteTools
  simp only []
  rw [h]
  simp

theorem step_history_of_not_done (hour minute : Nat) (m : Model) (e : StreamEvent)
    (he : e.type ≠ EventType.done) :
    (stepModel hour minute m e).history = m.history := by
  unfold stepModel handleStreamEvent
  cases he2 : e.type with
  | done => exact absurd he2 he
  | reasoning => by_cases hr : m.isReasoning = true <;> simp [hr]
  | content => by_cases hr : m.isReasoning = true <;> simp [hr]
  | toolCall => by_cases hc : m.currentContent.length > 0 <;> simp [hc]
  | error => rfl

theorem processEvents_history_of_no_done (hour minute : Nat)
    (events : List StreamEvent) :
    ∀ m : Model, (∀ e ∈ events, e.type ≠ EventType.done) →
      (processEvents hour minute m events).history = m.history := by
  induction events with
  | nil => intro m _; rfl
  | cons e tl ih =>
    intro m hnd
    have hfold : processEvents hour minute m (e :: tl) =
        processEvents hour minute (stepModel hour minute m e) tl := by
      simp [processEvents]
    rw [hfold, ih _ (fun x hx => hnd x (List.mem_cons_of_mem e hx)),
      step_history_of_not_done hour minute m e (hnd e (List.mem_cons_self e tl))]

/-- C4: if the session is cancelled (the controller receives
`StreamCompleteMsg` from the cancelled context in `nextStreamMsg`) after
processing any sequence of events none of which is the done event, the
History holds exactly the messages it held before the turn plus the
turn's user message — no assistant message, and the in-flight accumulated
content is never persisted; the controller is back in Ready. -/
theorem cancellation_spec (m : Model) (input : String) (hour minute : Nat)
    (events : List StreamEvent)
    (hnd : ∀ e ∈ events, e.type ≠ EventType.done) :
    (handleStreamComplete
      (processEvents hour minute (startConversation m input) events)).history.messages =
      m.history.messages ++
        [{ role := "user", content := input, toolCalls := [], toolCallID := "" }] ∧
    (handleStreamComplete
      (processEvents hour minute (startConversation m input) events)).state =
      UIState.ready := by
  constructor
  · have h1 : (processEvents hour minute (startConversation m input) events).history =
        (startConversation m input).history :=
      processEvents_history_of_no_done hour minute events (startConversation m input) hnd
    show (processEvents hour minute (startConversation m input) events).history.messages = _
    rw [h1]
    simp [startConversation, History.AddUserMessage, History.AddMessage]
  · rfl

/-- Witness for `cancellation_spec`: a turn that saw a content delta and
a reasoning delta and is then cancelled leaves History with only the user
message added. -/
theorem cancellation_spec_witness :
    (∀ e ∈ [contentEvent "par", ({ type := EventType.reasoning, reasoningContent := "r" } : StreamEvent)],
        e.type ≠ EventType.done) ∧
    (handleStreamComplete
      (processEvents 0 0 (startConversation exModel0 "q")
        [contentEvent "par",
         { type := EventType.reasoning, reasoningContent := "r" }])).history.messages =
      exModel0.history.messages ++
        [{ role := "user", content := "q", toolCalls := [], toolCallID := "" }] :=
  ⟨by decide,
   (cancellation_spec exModel0 "q" 0 0
      [contentEvent "par", { type := EventType.reasoning, reasoningContent := "r" }]
      (by decide)).1⟩

theorem occursAt_cons_succ (c : Char) (tl pat : List Char) (i : Nat) :
    occursAt (c :: tl) pat (i + 1) = occursAt tl pat i := rfl

theorem occursAt_nil_of_ne (pat : List Char) (hpat : pat ≠ []) (i : Nat) :
    occursAt [] pat i = false := by
  cases pat with
  | nil => exact absurd rfl hpat
  | cons p pt => simp [occursAt, List.isPrefixOf]

theorem length_pos_of_ne (pat : List Char) (hpat : pat ≠ []) :
    1 ≤ pat.length := by
  cases pat with
  | nil => exact absurd rfl hpat
  | cons p pt => simp

theorem isEmpty_false_of_ne (pat : List Char) (hpat : pat ≠ []) :
    pat.isEmpty = false := by
  cases pat with
  | nil => exact absurd rfl hpat
  | cons p pt => rfl

theorem drop_length_cons_of_ne (pat : List Char) (hpat : pat ≠ [])
    (c : Char) (tl : List Char) :
    (c :: tl).drop pat.length = tl.drop (pat.length - 1) := by
  cases pat with
  | nil => exact absurd rfl hpat
  | cons p pt => simp

theorem countNonOverlap_eq_zero_iff (pat : List Char) (hpat : pat ≠ []) :
    ∀ s : List Char,
      (countNonOverlap s pat = 0 ↔ ∀ i, occursAt s pat i = false) := by
  intro s
  induction s with
  | nil =>
    simp [countNonOverlap]
    intro i
    exact occursAt_nil_of_ne pat hpat i
  | cons c tl ih =>
    by_cases hpre : pat.isPrefixOf (c :: tl) = true
    · constructor
      · intro h0
        simp [countNonOverlap, hpre] at h0
      · intro hall
        have h0 := hall 0
        rw [show occursAt (c :: tl) pat 0 = pat.isPrefixOf (c :: tl) from rfl,
          hpre] at h0
        cases h0
    · simp only [Bool.not_eq_true] at hpre
      have heq : countNonOverlap (c :: tl) pat = countNonOverlap tl pat := by
        simp [countNonOverlap, hpre]
      rw [heq, ih]
      constructor
      · intro hall i
        cases i with
        | zero =>
          rw [show occursAt (c :: tl) pat 0 = pat.isPrefixOf (c :: tl) from rfl]
          exact hpre
        | succ i =>
          rw [occursAt_cons_succ]
          exact hall i
      · intro hall i
        rw [← occursAt_cons_succ c]
        exact hall (i + 1)

theorem occursAt_drop (s pat : List Char) (n k : Nat) :
    occursAt (s.drop n) pat k = occursAt s pat (n + k) := by
  unfold occursAt
  rw [List.drop_drop]

theorem countNonOverlap_pos_of_occurs (pat : List Char) (hpat : pat ≠ [])
    (s : List Char) (i : Nat) (hi : occursAt s pat i = true) :
    countNonOverlap s pat ≠ 0 := by
  intro h0
  have h := (countNonOverlap_eq_zero_iff pat hpat s).mp h0 i
  rw [hi] at h
  cases h

theorem replaceAux_first (pat repl : List Char) (hpat : pat ≠ []) :
    ∀ (s : List Char) (i : Nat), occursAt s pat i = true →
      (∀ j, j < i → occursAt s pat j = false) →
      replaceAux s pat repl = s.take i ++ repl ++ s.drop (i + pat.length) := by
  intro s
  induction s with
  | nil =>
    intro i hi _
    rw [occursAt_nil_of_ne pat hpat i] at hi
    cases hi
  | cons c tl ih =>
    intro i hi hmin
    cases i with
    | zero =>
      have hpre : pat.isPrefixOf (c :: tl) = true := hi
      simp [replaceAux, hpre, drop_length_cons_of_ne pat hpat c tl]
    | succ i =>
      have hpre : pat.isPrefixOf (c :: tl) = false := hmin 0 (Nat.succ_pos i)
      have hi2 : occursAt tl pat i = true := by
        rw [← occursAt_cons_succ c tl pat i]
        exact hi
      have hrec := ih i hi2 (fun j hj => by
        rw [← occursAt_cons_succ c tl pat j]
        exact hmin (j + 1) (Nat.succ_lt_succ hj))
      have heq : replaceAux (c :: tl) pat repl = c :: replaceAux tl pat repl := by
        simp [replaceAux, hpre]
      rw [heq, hrec]
      simp [Nat.succ_add]

theorem countNonOverlap_first (pat : List Char) (hpat : pat ≠ []) :
    ∀ (s : List Char) (i : Nat), occursAt s pat i = true →
      (∀ j, j < i → occursAt s pat j = false) →
      countNonOverlap s pat = 1 + countNonOverlap (s.drop (i + pat.length)) pat := by
  intro s
  induction s with
  | nil =>
    intro i hi _
    rw [occursAt_nil_of_ne pat hpat i] at hi
    cases hi
  | cons c tl ih =>
    intro i hi hmin
    cases i with
    | zero =>
      have hpre : pat.isPrefixOf (c :: tl) = true := hi
      simp [countNonOverlap, hpre, drop_length_cons_of_ne pat hpat c tl]
    | succ i =>
      have hpre : pat.isPrefixOf (c :: tl) = false := hmin 0 (Nat.succ_pos i)
      have hi2 : occursAt tl pat i = true := by
        rw [← occursAt_cons_succ c tl pat i]
        exact hi
      have hrec := ih i hi2 (fun j hj => by
        rw [← occursAt_cons_succ c tl pat j]
        exact hmin (j + 1) (Nat.succ_lt_succ hj))
      have heq : countNonOverlap (c :: tl) pat = countNonOverlap tl pat := by
        simp [countNonOverlap, hpre]
      rw [heq, hrec]
      congr 1
      simp [Nat.succ_add]

theorem countNonOverlap_ge_two (pat : List Char) (hpat : pat ≠ []) :
    ∀ (s : List Char) (i j : Nat), occursAt s pat i = true →
      occursAt s pat j = true → i + pat.length ≤ j →
      2 ≤ countNonOverlap s pat := by
  intro s
  induction s with
  | nil =>
    intro i j hi _ _
    rw [occursAt_nil_of_ne pat hpat i] at hi
    cases hi
  | cons c tl ih =>
    intro i j hi hj hij
    by_cases hpre : pat.isPrefixOf (c :: tl) = true
    · have hL1 : 1 ≤ pat.length := length_pos_of_ne pat hpat
      have hocc2 : occursAt (tl.drop (pat.length - 1)) pat (j - pat.length) = true := by
        rw [← drop_length_cons_of_ne pat hpat c tl, occursAt_drop,
          show pat.length + (j - pat.length) = j from by omega]
        exact hj
      have hnz := countNonOverlap_pos_of_occurs pat hpat _ _ hocc2
      have heq : countNonOverlap (c :: tl) pat =
          1 + countNonOverlap (tl.drop (pat.length - 1)) pat := by
        simp [countNonOverlap, hpre]
      omega
    · simp only [Bool.not_eq_true] at hpre
      have heq : countNonOverlap (c :: tl) pat = countNonOverlap tl pat := by
        simp [countNonOverlap, hpre]
      cases i with
      | zero =>
        have hpre2 : pat.isPrefixOf (c :: tl) = true := hi
        rw [hpre2] at hpre
        cases hpre
      | succ i2 =>
        cases j with
        | zero => omega
        | succ j2 =>
          rw [heq]
          refine ih i2 j2 ?_ ?_ (by omega)
          · rw [← occursAt_cons_succ c tl pat i2]
            exact hi
          · rw [← occursAt_cons_succ c tl pat j2]
            exact hj

/-- C10 as amended: for a readable file, `editFile` returns the
not-found error when the snippet occurs at no position; it returns an
error (the ambiguous-edit error) whenever a non-empty snippet has two
non-overlapping occurrences; and when the snippet occurs at exactly one
position it succeeds, returning the old content with that occurrence
replaced by the new snippet (nothing is written in the error cases). -/
theorem editFile_spec (content orig repl : List Char) :
    ((∀ i, occursAt content orig i = false) →
      editFile content orig repl =
        Except.error "original snippet not found in file") ∧
    (orig ≠ [] → ∀ i j, occursAt content orig i = true →
      occursAt content orig j = true → i + orig.length ≤ j →
      ∃ msg, editFile content orig repl = Except.error msg) ∧
    (∀ i, occursAt content orig i = true →
      (∀ j, j ≠ i → occursAt content orig j = false) →
      editFile content orig repl =
        Except.ok (content.take i ++ repl ++ content.drop (i + orig.length))) := by
  refine ⟨?_, ?_, ?_⟩
  · intro hnone
    have hpat : orig ≠ [] := by
      intro h
      subst h
      have h0 := hnone 0
      simp [occursAt, List.isPrefixOf] at h0
    have hc : countNonOverlap content orig = 0 :=
      (countNonOverlap_eq_zero_iff orig hpat content).mpr hnone
    simp [editFile, stringCount, isEmpty_false_of_ne orig hpat, hc]
  · intro hpat i j hi hj hij
    have h2 := countNonOverlap_ge_two orig hpat content i j hi hj hij
    have hc0 : ¬ stringCount content orig = 0 := by
      simp [stringCount, isEmpty_false_of_ne orig hpat]
      omega
    have hc1 : stringCount content orig > 1 := by
      simp [stringCount, isEmpty_false_of_ne orig hpat]
      omega
    exact ⟨"ambiguous edit: " ++ toString (stringCount content orig) ++
      " matches found for the snippet", by simp [editFile, hc0, hc1]⟩
  · intro i hi huniq
    have hpat : orig ≠ [] := by
      intro h
      subst h
      have h1 := huniq (i + 1) (by omega)
      simp [occursAt, List.isPrefixOf] at h1
    have hL1 : 1 ≤ orig.length := length_pos_of_ne orig hpat
    have hmin : ∀ j, j < i → occursAt content orig j = false :=
      fun j hj => huniq j (by omega)
    have hcount := countNonOverlap_first orig hpat content i hi hmin
    have hrest : countNonOverlap (content.drop (i + orig.length)) orig = 0 := by
      rw [countNonOverlap_eq_zero_iff orig hpat]
      intro k
      rw [occursAt_drop]
      exact huniq (i + orig.length + k) (by omega)
    have hc : stringCount content orig = 1 := by
      simp [stringCount, isEmpty_false_of_ne orig hpat, hcount, hrest]
    have hrepl : replaceFirst content orig repl =
        content.take i ++ repl ++ content.drop (i + orig.length) := by
      rw [replaceFirst, isEmpty_false_of_ne orig hpat]
      simp only [Bool.false_eq_true, if_false]
      exact replaceAux_first orig repl hpat content i hi hmin
    simp [editFile, hc, hrepl]

/-- C10 counterexample to the claim as stated: in the content "aaa" the
snippet "aa" occurs at the two distinct positions 0 and 1, yet
`editFile` performs the edit instead of rejecting it as ambiguous —
Go's `strings.Count` counts non-overlapping matches, so these two
overlapping occurrences count as one. -/
theorem editFile_overlap_counterexample :
    occursAt ['a', 'a', 'a'] ['a', 'a'] 0 = true ∧
    occursAt ['a', 'a', 'a'] ['a', 'a'] 1 = true ∧
    editFile ['a', 'a', 'a'] ['a', 'a'] ['b'] = Except.ok ['b', 'a'] := by
  refine ⟨rfl, rfl, ?_⟩
  simp [editFile, stringCount, countNonOverlap, replaceFirst, replaceAux,
    List.isPrefixOf]

/-- Witness for `editFile_spec` at concrete files: a snippet that never
occurs is rejected; "a" in "aba" at disjoint positions 0 and 2 is
ambiguous; "b" in "abc" occurs exactly once (at 1) and is replaced. -/
theorem editFile_spec_witness :
    editFile ['a', 'b'] ['z'] ['x'] =
      Except.error "original snippet not found in file" ∧
    (∃ msg, editFile ['a', 'b', 'a'] ['a'] ['x'] = Except.error msg) ∧
    editFile ['a', 'b', 'c'] ['b'] ['x', 'y'] =
      Except.ok (['a', 'b', 'c'].take 1 ++ ['x', 'y'] ++ ['a', 'b', 'c'].drop 2) := by
  refine ⟨?_, ?_, ?_⟩
  · apply (editFile_spec ['a', 'b'] ['z'] ['x']).1
    intro i
    rcases i with _ | _ | n <;> simp [occursAt, List.isPrefixOf]
  · exact (editFile_spec ['a', 'b', 'a'] ['a'] ['x']).2.1 (by decide) 0 2
      rfl rfl (by decide)
  · apply (editFile_spec ['a', 'b', 'c'] ['b'] ['x', 'y']).2.2 1 rfl
    intro j hj
    rcases j with _ | _ | _ | n
    · rfl
    · exact absurd rfl hj
    · rfl
    · simp [occursAt, List.isPrefixOf]

end Riptide
